import Mathlib

/-!
# Verification of the logarithmic spin-to-qubit mapper

A shallow embedding of `qiskit_nature/mappers/second_quantization/logarithmic_mapper.py`.

Operators (numpy arrays, `Operator`, `PauliSumOp`) are modelled by their matrix
semantics: a square matrix `PMat K` with a natural-number dimension and a total
entry function (entries outside the `dim × dim` range are irrelevant and never
constrained).  A `PauliSumOp` over `n` qubits denotes a `2^n × 2^n` matrix;
Pauli-string-wise coefficient addition is matrix addition, scalar multiplication
is entrywise scaling, `operator.xor` is the Kronecker product and
`operator.matmul` is matrix composition.  The external Pauli decomposition
(`SparsePauliOp.from_operator` followed by `chop` and `PauliSumOp`) is exact on
these semantics, hence the identity in the model.  The entry field `K` is an
arbitrary commutative ring (the code uses complex numbers; floating-point
arithmetic is modelled as exact).

Python exceptions are modelled with `Except MapError`: `QiskitNatureError` from
an invalid spin becomes `invalidSpin`, the `ValueError` of `_embed_matrix`
becomes `dimensionError`, and the `TypeError` of `functools.reduce` applied to
an empty sequence becomes `typeError`.
-/

namespace LogMapper

/-- The exceptions the mapper can raise, by semantic kind. -/
inductive MapError where
  | invalidSpin
  | dimensionError
  | typeError
deriving DecidableEq

/-- `functools.reduce f xs` with no initial value: Python raises `TypeError`
on an empty sequence (`none` here), otherwise left-folds `f` over the list. -/
def pyReduce {α : Type} (f : α → α → α) : List α → Option α
  | [] => none
  | x :: xs => some (xs.foldl f x)

/-- Exception-propagating sequencing (a `try`-free Python statement sequence). -/
def exbind {E α β : Type} : Except E α → (α → Except E β) → Except E β
  | .error e, _ => .error e
  | .ok a, f => f a

/-- A square matrix: dimension together with a total entry function.
Models a numpy 2D array / a qubit operator by its matrix semantics. -/
structure PMat (K : Type) where
  dim : ℕ
  entry : ℕ → ℕ → K

variable {K : Type} [CommRing K]

/-- `np.eye d` (extended by `1` on the diagonal outside the range, harmlessly). -/
def pmEye (d : ℕ) : PMat K :=
  ⟨d, fun i j => if i = j then 1 else 0⟩

/-- Scalar multiplication `c * A` (Python `coeff * PauliSumOp`). -/
def pmSmul (c : K) (a : PMat K) : PMat K :=
  ⟨a.dim, fun i j => c * a.entry i j⟩

/-- Entrywise sum `A + B` (`operator.add` on `PauliSumOp`: Pauli-string-wise
addition of coefficients). -/
def pmAdd (a b : PMat K) : PMat K :=
  ⟨a.dim, fun i j => a.entry i j + b.entry i j⟩

/-- Matrix product `A @ B` (`operator.matmul` on `PauliSumOp`). -/
def pmMatmul (a b : PMat K) : PMat K :=
  ⟨a.dim, fun i j => ((List.range a.dim).map fun k => a.entry i k * b.entry k j).sum⟩

instance : Mul (PMat K) := ⟨pmMatmul⟩

/-- Kronecker product `A ⊗ B` (`operator.xor` on `PauliSumOp`); the left factor
is the most significant one. -/
def kron (a b : PMat K) : PMat K :=
  ⟨a.dim * b.dim, fun i j =>
    a.entry (i / b.dim) (j / b.dim) * b.entry (i % b.dim) (j % b.dim)⟩

/-- The `EmbedLocation` enum of the mapper. -/
inductive EmbedLocation where
  | upper
  | lower
deriving DecidableEq

/-- `LogarithmicMapper._embed_matrix`: embed `matrix` into the upper-left or
lower-right diagonal block of a `2^num_qubits × 2^num_qubits` matrix, padding
the other diagonal block with `padding` on the diagonal (`np.block` of the
Python source, written entrywise); raise `ValueError` when the matrix does not
fit. -/
def _embed_matrix (padding : K) (location : EmbedLocation) (matrix : PMat K)
    (num_qubits : ℕ) : Except MapError (PMat K) :=
  let full_dim := 2 ^ num_qubits
  let subs_dim := matrix.dim
  if full_dim = subs_dim then
    .ok matrix
  else if subs_dim < full_dim then
    let dim_diff := full_dim - subs_dim
    match location with
    | .lower =>
        .ok ⟨full_dim, fun i j =>
          if i < dim_diff then
            if j < dim_diff then (if i = j then padding else 0) else 0
          else
            if j < dim_diff then 0 else matrix.entry (i - dim_diff) (j - dim_diff)⟩
    | .upper =>
        .ok ⟨full_dim, fun i j =>
          if i < subs_dim then
            if j < subs_dim then matrix.entry i j else 0
          else
            if j < subs_dim then 0 else (if i = j then padding else 0)⟩
  else
    .error .dimensionError

/-- `int(2 * spin + 1)`: the dimension of the physical spin space.  Writing
the reduced fraction `spin = num / den`, exactly `2 * spin + 1 = (2 * num +
den) / den`; `/` below is integer floor division, which agrees with Python
`int` truncation whenever `2 * spin + 1 ≥ 0` (in particular on every valid
spin). -/
def dspin (spin : ℚ) : ℕ := ((2 * spin.num + spin.den) / spin.den).toNat

/-- Ceiling base-2 logarithm by structural recursion on a fuel bound,
`clog2_fuel fuel d = ⌈log2 d⌉` whenever `d ≤ fuel` (and `0` for `d ≤ 1`). -/
def clog2_fuel : ℕ → ℕ → ℕ
  | 0, _ => 0
  | fuel + 1, d => if d ≤ 1 then 0 else clog2_fuel fuel ((d + 1) / 2) + 1

/-- `int(np.ceil(np.log2(d)))` of the source, in exact arithmetic: the ceiling
of the base-2 logarithm of `d`. -/
def num_qubits_for (d : ℕ) : ℕ := clog2_fuel d d

/-- The three spin axes whose matrices the encoding requests. -/
inductive Axis where
  | X
  | Y
  | Z
deriving DecidableEq

/-- The spec's notion of a valid spin, a non-negative half-integer `k / 2`:
non-negative, and the reduced denominator is `1` or `2` (equivalently,
`2 * spin` is an integer). -/
abbrev validSpin (spin : ℚ) : Prop := 0 ≤ spin.num ∧ spin.den ≤ 2

/-- Modelled from the spec: the external spin-matrix provider
(`SpinOp(symbol, spin=spin).to_matrix()`, repository code that is not under
`src/`).  Per the spec, a spin that is not a valid non-negative half-integer
fails with `InvalidSpinError`; otherwise the provider returns the
`(2S+1) × (2S+1)` spin matrix for the requested axis, supplied here by an
abstract provider function. -/
def spin_matrix (provider : ℚ → Axis → PMat K) (spin : ℚ) (ax : Axis) :
    Except MapError (PMat K) :=
  if validSpin spin then .ok (provider spin ax) else .error .invalidSpin

/-- `LogarithmicMapper._logarithmic_encoding`: build the X, Y, Z spin matrices
and the `d × d` identity, embed each into `2^num_qubits` dimensions, and return
the four encoded operators `(spinx, spiny, spinz, identity)`.  The final Pauli
decomposition with `chop` is exact on the matrix semantics and hence the
identity here. -/
def _logarithmic_encoding (provider : ℚ → Axis → PMat K) (padding : K)
    (location : EmbedLocation) (spin : ℚ) :
    Except MapError (PMat K × PMat K × PMat K × PMat K) :=
  exbind (spin_matrix provider spin Axis.X) fun sx =>
  exbind (spin_matrix provider spin Axis.Y) fun sy =>
  exbind (spin_matrix provider spin Axis.Z) fun sz =>
  exbind (_embed_matrix padding location sx (num_qubits_for (dspin spin))) fun ex =>
  exbind (_embed_matrix padding location sy (num_qubits_for (dspin spin))) fun ey =>
  exbind (_embed_matrix padding location sz (num_qubits_for (dspin spin))) fun ez =>
  exbind (_embed_matrix padding location (pmEye (dspin spin)) (num_qubits_for (dspin spin)))
    fun ei =>
  .ok (ex, ey, ez, ei)

/-- The body of the inner loop of `LogarithmicMapper.map` (lines 91-110):
the local operator of one mode with exponents `(n_x, n_y, n_z)`.  Each positive
exponent contributes `reduce(matmul, [spin_axis] * n)`; if the collected list
`operator_on_spin_i` is non-empty it is reduced with `matmul`, otherwise the
encoded identity is used.  Generic in the operator type, exactly as the
duck-typed Python is. -/
def local_operator {M : Type} [Mul M] (spinx spiny spinz identity : M)
    (m : ℕ × ℕ × ℕ) : M :=
  let operator_on_spin_i : List M :=
    (if 0 < m.1 then (pyReduce (· * ·) (List.replicate m.1 spinx)).toList else []) ++
    (if 0 < m.2.1 then (pyReduce (· * ·) (List.replicate m.2.1 spiny)).toList else []) ++
    (if 0 < m.2.2 then (pyReduce (· * ·) (List.replicate m.2.2 spinz)).toList else [])
  match pyReduce (· * ·) operator_on_spin_i with
  | some single_operator_on_spin_i => single_operator_on_spin_i
  | none => identity

/-- One `SpinTerm`: a coefficient and, per mode, the x/y/z exponents
(`zip(second_q_op.x[idx], second_q_op.y[idx], second_q_op.z[idx])`). -/
structure SpinTerm (K : Type) where
  coeff : K
  modes : List (ℕ × ℕ × ℕ)

/-- A `SpinOp` input as `map` reads it: the spin quantum number and the term
list from `to_list()` together with the exponent arrays. -/
structure SpinOperator (K : Type) where
  spin : ℚ
  terms : List (SpinTerm K)

/-- Line 113 of the source: `coeff * reduce(operator.xor, reversed(operatorlist))`,
the full-register operator of one term.  `none` models the `TypeError` of
reducing an empty sequence (a term with no modes). -/
def term_operator (spinx spiny spinz identity : PMat K) (coeff : K)
    (modes : List (ℕ × ℕ × ℕ)) : Option (PMat K) :=
  let operatorlist := modes.map (local_operator spinx spiny spinz identity)
  (pyReduce kron operatorlist.reverse).map fun t => pmSmul coeff t

/-- The main loop of `map`: build each term's operator in order, propagating
the first failure (Python's exception propagation out of the `for` loop). -/
def collect_qubit_ops (spinx spiny spinz identity : PMat K) :
    List (SpinTerm K) → Option (List (PMat K))
  | [] => some []
  | t :: rest =>
    match term_operator spinx spiny spinz identity t.coeff t.modes with
    | none => none
    | some a => (collect_qubit_ops spinx spiny spinz identity rest).map fun l => a :: l

/-- `LogarithmicMapper.map`: encode the spin's basis operators, build every
term's full-register operator, and sum them with `reduce(operator.add, ...)`. -/
def map (provider : ℚ → Axis → PMat K) (padding : K) (location : EmbedLocation)
    (second_q_op : SpinOperator K) : Except MapError (PMat K) :=
  exbind (_logarithmic_encoding provider padding location second_q_op.spin) fun enc =>
  match collect_qubit_ops enc.1 enc.2.1 enc.2.2.1 enc.2.2.2 second_q_op.terms with
  | none => .error .typeError
  | some qubit_ops_list =>
    match pyReduce pmAdd qubit_ops_list with
    | none => .error .typeError
    | some qubit_op => .ok qubit_op

/-- Spec-side helper for the tensor order: right-nested Kronecker products with
the head of the list as the leftmost (most significant) factor. -/
def rtAux (a : PMat K) : List (PMat K) → PMat K
  | [] => a
  | b :: rest => kron a (rtAux b rest)

/-- Spec-side definition of the tensor step: tensor the per-mode operators in
reverse mode order, the last mode becoming the leftmost (most significant)
Kronecker factor. -/
def reverse_tensor (l : List (PMat K)) : PMat K :=
  match l.reverse with
  | [] => pmEye 1
  | a :: rest => rtAux a rest

/-- Spec-side helper for the block layout of an embedded matrix: the index at
which the physical block starts (`0` for UPPER, `full - sub` for LOWER). -/
def blockStart (location : EmbedLocation) (full sub : ℕ) : ℕ :=
  match location with
  | .upper => 0
  | .lower => full - sub

/-- Spec-side helper: index `i` lies in the physical (embedded-matrix) block. -/
def inPhys (location : EmbedLocation) (full sub i : ℕ) : Prop :=
  blockStart location full sub ≤ i ∧ i < blockStart location full sub + sub

/-- A concrete spin-matrix provider used in closed instantiations. -/
def prov0 : ℚ → Axis → PMat ℚ := fun _ _ => pmEye 2

theorem foldl_mul_replicate {M : Type} [Monoid M] (n : ℕ) (a x : M) :
    List.foldl (· * ·) a (List.replicate n x) = a * x ^ n := by
  induction n generalizing a with
  | zero => simp
  | succ n ih =>
      rw [List.replicate_succ, List.foldl_cons, ih, pow_succ', ← mul_assoc]

theorem pyReduce_mul_replicate_succ {M : Type} [Monoid M] (n : ℕ) (x : M) :
    pyReduce (· * ·) (List.replicate (n + 1) x) = some (x ^ (n + 1)) := by
  rw [List.replicate_succ]
  simp [pyReduce, foldl_mul_replicate, pow_succ']

theorem pyReduce_cons {α : Type} (f : α → α → α) (x : α) (xs : List α) :
    pyReduce f (x :: xs) = some (List.foldl f x xs) := rfl

theorem kron_assoc (a b c : PMat K) : kron (kron a b) c = kron a (kron b c) := by
  unfold kron
  simp only [mul_assoc]
  congr 1
  funext i j
  rw [Nat.div_div_eq_div_mul, Nat.div_div_eq_div_mul, Nat.mul_comm c.dim b.dim,
    Nat.mod_mul_left_div_self, Nat.mod_mul_left_div_self,
    Nat.mod_mul_left_mod, Nat.mod_mul_left_mod]

theorem rtAux_kron (a b : PMat K) (l : List (PMat K)) :
    rtAux (kron a b) l = kron a (rtAux b l) := by
  cases l with
  | nil => rfl
  | cons c rest => exact kron_assoc a b (rtAux c rest)

theorem foldl_kron_eq_rtAux (l : List (PMat K)) (a : PMat K) :
    List.foldl kron a l = rtAux a l := by
  induction l generalizing a with
  | nil => rfl
  | cons b rest ih => rw [List.foldl_cons, ih (kron a b), rtAux_kron]; rfl

theorem clog2_fuel_eq_clog (fuel d : ℕ) (h : d ≤ fuel) :
    clog2_fuel fuel d = Nat.clog 2 d := by
  induction fuel generalizing d with
  | zero =>
      have hd : d = 0 := by omega
      subst hd
      rw [clog2_fuel, Nat.clog_of_right_le_one (by omega)]
  | succ fuel ih =>
      by_cases hd : d ≤ 1
      · rw [clog2_fuel, if_pos hd, Nat.clog_of_right_le_one hd]
      · rw [clog2_fuel, if_neg hd, Nat.clog_of_two_le (by omega) (show 2 ≤ d by omega),
          ih ((d + 1) / 2) (by omega)]
        norm_num

/-- C5: if the matrix's dimension already equals `2 ^ num_qubits` (`diff == 0`),
the embedding returns the input matrix unchanged, with no padding block and
independent of the configured padding value and embed location. -/
theorem embed_identity_when_fits (padding : K) (location : EmbedLocation)
    (matrix : PMat K) (num_qubits : ℕ) (h : matrix.dim = 2 ^ num_qubits) :
    _embed_matrix padding location matrix num_qubits = .ok matrix := by
  simp [_embed_matrix, h]

theorem embed_identity_when_fits_witness :
    (pmEye 2 : PMat ℚ).dim = 2 ^ 1 ∧
    _embed_matrix (5 : ℚ) EmbedLocation.lower (pmEye 2) 1 = .ok (pmEye 2) :=
  ⟨by decide, embed_identity_when_fits 5 EmbedLocation.lower (pmEye 2) 1 (by decide)⟩

/-- C6: the embedding fails with a dimension error exactly when the matrix's
native dimension exceeds `2 ^ num_qubits`; whenever the matrix fits, the error
branch is unreachable and the embedding returns normally. -/
theorem embed_error_iff (padding : K) (location : EmbedLocation)
    (matrix : PMat K) (num_qubits : ℕ) :
    (_embed_matrix padding location matrix num_qubits = .error .dimensionError ↔
      2 ^ num_qubits < matrix.dim) ∧
    (matrix.dim ≤ 2 ^ num_qubits →
      ∃ M, _embed_matrix padding location matrix num_qubits = .ok M) := by
  unfold _embed_matrix
  by_cases h1 : (2 : ℕ) ^ num_qubits = matrix.dim
  · simp only [if_pos h1]
    exact ⟨by simp; omega, fun _ => ⟨matrix, rfl⟩⟩
  · by_cases h2 : matrix.dim < 2 ^ num_qubits
    · simp only [if_neg h1, if_pos h2]
      cases location <;>
        exact ⟨by simp; omega, fun _ => ⟨_, rfl⟩⟩
    · simp only [if_neg h1, if_neg h2]
      exact ⟨by simp; omega, fun hle => absurd hle (by omega)⟩

theorem embed_error_iff_witness :
    _embed_matrix (1 : ℚ) EmbedLocation.upper (pmEye 3) 1 = .error .dimensionError ∧
    ((pmEye 2 : PMat ℚ).dim ≤ 2 ^ 1 ∧
      ∃ M, _embed_matrix (1 : ℚ) EmbedLocation.upper (pmEye 2) 1 = .ok M) :=
  ⟨(embed_error_iff (1 : ℚ) EmbedLocation.upper (pmEye 3) 1).1.mpr (by decide),
   ⟨by decide, (embed_error_iff (1 : ℚ) EmbedLocation.upper (pmEye 2) 1).2 (by decide)⟩⟩

/-- C4: for every valid spin, the physical dimension `d = 2S+1` is a positive
integer and the number of qubits used by the encoding, `⌈log2 d⌉`, is the
smallest `n` with `2 ^ n ≥ d`. -/
theorem num_qubits_minimal (spin : ℚ) (h : validSpin spin) :
    1 ≤ dspin spin ∧
    dspin spin ≤ 2 ^ num_qubits_for (dspin spin) ∧
    ∀ m : ℕ, dspin spin ≤ 2 ^ m → num_qubits_for (dspin spin) ≤ m := by
  have h1 : 1 ≤ dspin spin := by
    have hden : (0 : ℤ) < spin.den := by exact_mod_cast spin.den_pos
    have h2 : (1 : ℤ) ≤ (2 * spin.num + spin.den) / spin.den :=
      (Int.le_ediv_iff_mul_le hden).mpr (by have := h.1; omega)
    unfold dspin
    omega
  have hc : num_qubits_for (dspin spin) = Nat.clog 2 (dspin spin) :=
    clog2_fuel_eq_clog _ _ le_rfl
  refine ⟨h1, ?_, ?_⟩
  · rw [hc]
    exact (Nat.le_pow_iff_clog_le (by omega)).mpr le_rfl
  · intro m hm
    rw [hc]
    exact (Nat.le_pow_iff_clog_le (by omega)).mp hm

theorem num_qubits_minimal_witness :
    validSpin (Rat.divInt 3 2) ∧
    (1 ≤ dspin (Rat.divInt 3 2) ∧
      dspin (Rat.divInt 3 2) ≤ 2 ^ num_qubits_for (dspin (Rat.divInt 3 2)) ∧
      ∀ m : ℕ, dspin (Rat.divInt 3 2) ≤ 2 ^ m →
        num_qubits_for (dspin (Rat.divInt 3 2)) ≤ m) :=
  ⟨by decide, num_qubits_minimal (Rat.divInt 3 2) (by decide)⟩

/-- C3: when the matrix is strictly smaller than the register (`diff > 0`),
the embedded matrix is block-diagonal: the input occupies the upper-left block
for UPPER and the lower-right block for LOWER, the complementary diagonal
block is `padding · I`, and every cross-block entry is exactly zero. -/
theorem embed_block_structure (padding : K) (location : EmbedLocation)
    (matrix : PMat K) (num_qubits : ℕ) (h : matrix.dim < 2 ^ num_qubits) :
    ∃ M : PMat K,
      _embed_matrix padding location matrix num_qubits = .ok M ∧
      M.dim = 2 ^ num_qubits ∧
      ∀ i j, i < 2 ^ num_qubits → j < 2 ^ num_qubits →
        ((inPhys location (2 ^ num_qubits) matrix.dim i ∧
            inPhys location (2 ^ num_qubits) matrix.dim j →
          M.entry i j =
            matrix.entry (i - blockStart location (2 ^ num_qubits) matrix.dim)
              (j - blockStart location (2 ^ num_qubits) matrix.dim)) ∧
         (¬ inPhys location (2 ^ num_qubits) matrix.dim i ∧
            ¬ inPhys location (2 ^ num_qubits) matrix.dim j →
          M.entry i j = if i = j then padding else 0) ∧
         ((inPhys location (2 ^ num_qubits) matrix.dim i ↔
            ¬ inPhys location (2 ^ num_qubits) matrix.dim j) →
          M.entry i j = 0)) := by
  have hne : ¬ ((2 : ℕ) ^ num_qubits = matrix.dim) := by omega
  cases location with
  | upper =>
      refine ⟨⟨2 ^ num_qubits, fun i j =>
        if i < matrix.dim then (if j < matrix.dim then matrix.entry i j else 0)
        else (if j < matrix.dim then 0 else if i = j then padding else 0)⟩,
        ?_, rfl, ?_⟩
      · simp only [_embed_matrix]
        rw [if_neg hne, if_pos h]
      · intro i j hi hj
        dsimp only [inPhys, blockStart]
        refine ⟨fun hc => ?_, fun hc => ?_, fun hc => ?_⟩ <;>
          split_ifs <;> first | rfl | omega
  | lower =>
      refine ⟨⟨2 ^ num_qubits, fun i j =>
        if i < 2 ^ num_qubits - matrix.dim then
          (if j < 2 ^ num_qubits - matrix.dim then (if i = j then padding else 0) else 0)
        else
          (if j < 2 ^ num_qubits - matrix.dim then 0
           else matrix.entry (i - (2 ^ num_qubits - matrix.dim))
             (j - (2 ^ num_qubits - matrix.dim)))⟩,
        ?_, rfl, ?_⟩
      · simp only [_embed_matrix]
        rw [if_neg hne, if_pos h]
      · intro i j hi hj
        dsimp only [inPhys, blockStart]
        refine ⟨fun hc => ?_, fun hc => ?_, fun hc => ?_⟩ <;>
          split_ifs <;> first | rfl | omega

theorem embed_block_structure_witness :
    ∃ M : PMat ℚ,
      _embed_matrix (7 : ℚ) EmbedLocation.lower ⟨1, fun _ _ => 5⟩ 1 = .ok M ∧
      M.dim = 2 ^ 1 ∧
      ∀ i j, i < 2 ^ 1 → j < 2 ^ 1 →
        ((inPhys EmbedLocation.lower (2 ^ 1) (PMat.dim ⟨1, fun _ _ => (5 : ℚ)⟩) i ∧
            inPhys EmbedLocation.lower (2 ^ 1) (PMat.dim ⟨1, fun _ _ => (5 : ℚ)⟩) j →
          M.entry i j =
            PMat.entry ⟨1, fun _ _ => (5 : ℚ)⟩
              (i - blockStart EmbedLocation.lower (2 ^ 1) (PMat.dim ⟨1, fun _ _ => (5 : ℚ)⟩))
              (j - blockStart EmbedLocation.lower (2 ^ 1) (PMat.dim ⟨1, fun _ _ => (5 : ℚ)⟩))) ∧
         (¬ inPhys EmbedLocation.lower (2 ^ 1) (PMat.dim ⟨1, fun _ _ => (5 : ℚ)⟩) i ∧
            ¬ inPhys EmbedLocation.lower (2 ^ 1) (PMat.dim ⟨1, fun _ _ => (5 : ℚ)⟩) j →
          M.entry i j = if i = j then (7 : ℚ) else 0) ∧
         ((inPhys EmbedLocation.lower (2 ^ 1) (PMat.dim ⟨1, fun _ _ => (5 : ℚ)⟩) i ↔
            ¬ inPhys EmbedLocation.lower (2 ^ 1) (PMat.dim ⟨1, fun _ _ => (5 : ℚ)⟩) j) →
          M.entry i j = 0)) :=
  embed_block_structure (7 : ℚ) EmbedLocation.lower ⟨1, fun _ _ => 5⟩ 1 (by decide)

/-- C1: for every mode of a SpinTerm, the local operator built by `map` is the
encoded identity when the x, y and z exponents are all zero; otherwise it is
the operator composition (matrix product) of the encoded X repeated `a` times,
then Y repeated `b` times, then Z repeated `c` times, omitting zero-exponent
factors, in that X-then-Y-then-Z order. -/
theorem local_operator_spec {M : Type} [Monoid M] (spinx spiny spinz identity : M)
    (a b c : ℕ) :
    (a = 0 ∧ b = 0 ∧ c = 0 →
      local_operator spinx spiny spinz identity (a, b, c) = identity) ∧
    (¬ (a = 0 ∧ b = 0 ∧ c = 0) →
      local_operator spinx spiny spinz identity (a, b, c) =
        spinx ^ a * spiny ^ b * spinz ^ c) := by
  constructor
  · rintro ⟨rfl, rfl, rfl⟩
    rfl
  · intro hne
    rcases a with _ | a <;> rcases b with _ | b <;> rcases c with _ | c
    · exact absurd ⟨rfl, rfl, rfl⟩ hne
    all_goals
      simp [local_operator, pyReduce_mul_replicate_succ, pyReduce_cons]

theorem local_operator_spec_witness :
    ¬ ((2 : ℕ) = 0 ∧ (0 : ℕ) = 0 ∧ (1 : ℕ) = 0) ∧
    local_operator (2 : ℚ) 3 5 7 (2, 0, 1) = (2 : ℚ) ^ 2 * 3 ^ 0 * 5 ^ 1 :=
  ⟨by decide, (local_operator_spec (2 : ℚ) 3 5 7 2 0 1).2 (by decide)⟩

/-- C2: for every term with at least one mode, `map` tensors the per-mode
local operators in reverse mode order — the last mode becomes the leftmost
(most significant) Kronecker factor — and scales the result by the term's
coefficient. -/
theorem term_operator_tensor (spinx spiny spinz identity : PMat K) (coeff : K)
    (modes : List (ℕ × ℕ × ℕ)) (h : modes ≠ []) :
    term_operator spinx spiny spinz identity coeff modes =
      some (pmSmul coeff (reverse_tensor
        (modes.map (local_operator spinx spiny spinz identity)))) := by
  simp only [term_operator, reverse_tensor]
  cases hrev : (modes.map (local_operator spinx spiny spinz identity)).reverse with
  | nil =>
      simp only [List.reverse_eq_nil_iff, List.map_eq_nil_iff] at hrev
      exact absurd hrev h
  | cons a rest =>
      simp only [pyReduce_cons, Option.map_some']
      rw [foldl_kron_eq_rtAux]

theorem term_operator_tensor_witness :
    ([((1 : ℕ), (0 : ℕ), (0 : ℕ)), (0, 0, 1)] : List (ℕ × ℕ × ℕ)) ≠ [] ∧
    term_operator (pmEye 2) (pmEye 2) (pmEye 2) (pmEye 2) (3 : ℚ) [(1, 0, 0), (0, 0, 1)] =
      some (pmSmul 3 (reverse_tensor ([((1 : ℕ), (0 : ℕ), (0 : ℕ)), (0, 0, 1)].map
        (local_operator (pmEye 2) (pmEye 2) (pmEye 2) (pmEye 2))))) :=
  ⟨by decide,
   term_operator_tensor (pmEye 2) (pmEye 2) (pmEye 2) (pmEye 2) (3 : ℚ)
     [(1, 0, 0), (0, 0, 1)] (by decide)⟩

/-- C7: for every spin that is not a valid non-negative half-integer, the
basis encoding — and hence `map` — fails with the invalid-spin error rather
than proceeding with a truncated dimension. -/
theorem invalid_spin_raises (provider : ℚ → Axis → PMat K) (padding : K)
    (location : EmbedLocation) (spin : ℚ) (terms : List (SpinTerm K))
    (h : ¬ validSpin spin) :
    _logarithmic_encoding provider padding location spin = .error .invalidSpin ∧
    map provider padding location ⟨spin, terms⟩ = .error .invalidSpin := by
  have he : _logarithmic_encoding (K := K) provider padding location spin =
      .error .invalidSpin := by
    simp [_logarithmic_encoding, spin_matrix, h, exbind]
  exact ⟨he, by simp [map, he, exbind]⟩

theorem invalid_spin_raises_witness :
    ¬ validSpin (Rat.divInt 1 3) ∧
    (_logarithmic_encoding prov0 1 EmbedLocation.upper (Rat.divInt 1 3) =
        .error .invalidSpin ∧
      map prov0 1 EmbedLocation.upper ⟨Rat.divInt 1 3, []⟩ = .error .invalidSpin) :=
  ⟨by decide,
   invalid_spin_raises prov0 1 EmbedLocation.upper (Rat.divInt 1 3) [] (by decide)⟩

/-- C8: mapping a two-term SpinOperator equals the Pauli-string-wise sum
(matrix addition) of mapping each single-term operator individually. -/
theorem map_additive (provider : ℚ → Axis → PMat K) (padding : K)
    (location : EmbedLocation) (spin : ℚ) (t1 t2 : SpinTerm K) (A B : PMat K)
    (h1 : map provider padding location ⟨spin, [t1]⟩ = .ok A)
    (h2 : map provider padding location ⟨spin, [t2]⟩ = .ok B) :
    map provider padding location ⟨spin, [t1, t2]⟩ = .ok (pmAdd A B) := by
  cases henc : _logarithmic_encoding provider padding location spin with
  | error e =>
      simp only [map, henc, exbind] at h1
      exact Except.noConfusion h1
  | ok enc =>
      obtain ⟨sx, sy, sz, iq⟩ := enc
      cases ht1 : term_operator sx sy sz iq t1.coeff t1.modes with
      | none =>
          simp [map, henc, exbind, collect_qubit_ops, ht1] at h1
      | some a1 =>
          cases ht2 : term_operator sx sy sz iq t2.coeff t2.modes with
          | none =>
              simp [map, henc, exbind, collect_qubit_ops, ht2] at h2
          | some a2 =>
              simp [map, henc, exbind, collect_qubit_ops, ht1, ht2, pyReduce]
                at h1 h2 ⊢
              rw [h1, h2]

theorem map_additive_witness :
    map prov0 1 EmbedLocation.upper
        ⟨Rat.divInt 1 2, [⟨2, [(1, 0, 0)]⟩, ⟨3, [(0, 0, 1)]⟩]⟩ =
      .ok (pmAdd (pmSmul 2 (pmEye 2)) (pmSmul 3 (pmEye 2))) :=
  map_additive prov0 1 EmbedLocation.upper (Rat.divInt 1 2)
    ⟨2, [(1, 0, 0)]⟩ ⟨3, [(0, 0, 1)]⟩ (pmSmul 2 (pmEye 2)) (pmSmul 3 (pmEye 2))
    rfl rfl

/-- C9: `map` is a pure, deterministic function of the input operator and the
mapper configuration: runs on equal inputs and equal configurations produce
equal outputs (and, the model being functional, nothing is mutated). -/
theorem map_pure_deterministic (provider1 provider2 : ℚ → Axis → PMat K)
    (padding1 padding2 : K) (location1 location2 : EmbedLocation)
    (op1 op2 : SpinOperator K)
    (hprov : provider1 = provider2) (hpad : padding1 = padding2)
    (hloc : location1 = location2) (hop : op1 = op2) :
    map provider1 padding1 location1 op1 = map provider2 padding2 location2 op2 := by
  subst hprov
  subst hpad
  subst hloc
  subst hop
  rfl

theorem map_pure_deterministic_witness :
    map prov0 1 EmbedLocation.upper ⟨Rat.divInt 1 2, []⟩ =
      map prov0 1 EmbedLocation.upper ⟨Rat.divInt 1 2, []⟩ :=
  map_pure_deterministic prov0 prov0 1 1 EmbedLocation.upper EmbedLocation.upper
    ⟨Rat.divInt 1 2, []⟩ ⟨Rat.divInt 1 2, []⟩ rfl rfl rfl rfl

/-- C10: on a SpinOperator with an empty term list, `map` raises the
`TypeError` of reducing an empty sequence with no initial value (modelled as
the `typeError` outcome), rather than returning a zero operator. -/
theorem map_empty_terms_type_error (provider : ℚ → Axis → PMat K) (padding : K)
    (location : EmbedLocation) (spin : ℚ)
    (enc : PMat K × PMat K × PMat K × PMat K)
    (h : _logarithmic_encoding provider padding location spin = .ok enc) :
    map provider padding location ⟨spin, []⟩ = .error .typeError := by
  simp [map, h, exbind, collect_qubit_ops, pyReduce]

theorem map_empty_terms_type_error_witness :
    map prov0 1 EmbedLocation.upper ⟨Rat.divInt 1 2, []⟩ = .error .typeError :=
  map_empty_terms_type_error prov0 1 EmbedLocation.upper (Rat.divInt 1 2)
    (pmEye 2, pmEye 2, pmEye 2, pmEye 2) rfl

end LogMapper
